import Mathlib

/-!
Verification of the core of `mdbook-puml` (src/lib.rs), a preprocessor that
scans markdown for plantuml code fences, renders each block to an image, and
rewrites the text to reference the rendered artifact.

The text is modelled as a list of UTF-8 bytes (`List Nat`), positions as byte
offsets, exactly as the Rust code works on `&str` byte offsets.  Every
definition is translated from the source:

* `find_pumls` / `PumlIter::next` — an Aho-Corasick scan (leftmost-longest,
  non-overlapping) for the three literal patterns
  `"```plantuml\n"` (pattern 0), `"```"` (pattern 1),
  `"```plantuml,ignore\n"` (pattern 2); an opener is the next match whose
  pattern is not 1, the closer is simply the next match after it.
* `Puml.uuid` — Rust's `DefaultHasher` (SipHash-1-3 with keys (0,0)) run over
  the content bytes, then again with an extra 0 byte, the two 64-bit results
  concatenated into a 128-bit value.
* `Puml.render` / `Compiler.replace_all` / `Compiler.compile` — the rewrite
  pass and the existence-based render cache.

The model is executable; the SipHash model reproduces the exact UUIDs recorded
in the repository's own `replace` test, and the scanner model reproduces the
exact offsets of the repository's `test_find_plantuml` test.
-/

set_option maxRecDepth 100000

/-- UTF-8 encoding of a single character, byte values as `Nat`. -/
def utf8Char (c : Char) : List Nat :=
  let n := c.toNat
  if n < 128 then [n]
  else if n < 2048 then [192 + n / 64, 128 + n % 64]
  else if n < 65536 then [224 + n / 4096, 128 + (n / 64) % 64, 128 + n % 64]
  else [240 + n / 262144, 128 + (n / 4096) % 64, 128 + (n / 64) % 64, 128 + n % 64]

/-- UTF-8 bytes of a string, the representation Rust's `&str` slices. -/
def bytes (s : String) : List Nat := (s.data.map utf8Char).flatten

/-- Byte slice `s[a..b]` of Rust. Total on the model (out-of-range clips). -/
def seg (s : List Nat) (a b : Nat) : List Nat := (s.take b).drop a

/-- Search pattern 0 of `find_pumls`: an ordinary plantuml opening fence. -/
def pat0 : List Nat := bytes "```plantuml\n"

/-- Search pattern 1 of `find_pumls`: a bare fence. -/
def pat1 : List Nat := bytes "```"

/-- Search pattern 2 of `find_pumls`: the ignore-qualified opening fence. -/
def pat2 : List Nat := bytes "```plantuml,ignore\n"

/-- Pattern literal for a pattern index. -/
def patOf : Nat → List Nat
  | 0 => pat0
  | 1 => pat1
  | _ => pat2

/-- One Aho-Corasick match: pattern index, start offset, end offset. -/
structure ACMatch where
  pattern : Nat
  start : Nat
  stop : Nat
  deriving DecidableEq, Repr

/-- Scan tail `l` (sitting at absolute offset `i`) for the next
leftmost-longest match of the three patterns.  All patterns begin with
three backticks, so the leftmost match site is the next occurrence of
any pattern, and at that site the longest pattern (2, then 0, then 1)
wins — exactly aho-corasick's `MatchKind::LeftmostLongest`. -/
def findFromAux : List Nat → Nat → Option ACMatch
  | [], _ => none
  | b :: rest, i =>
    if pat2.isPrefixOf (b :: rest) then some ⟨2, i, i + 19⟩
    else if pat0.isPrefixOf (b :: rest) then some ⟨0, i, i + 12⟩
    else if pat1.isPrefixOf (b :: rest) then some ⟨1, i, i + 3⟩
    else findFromAux rest (i + 1)

/-- Next match at or after offset `i`; the `FindIter::next` of the model.
Successive calls pass the previous match's `stop`, giving the
non-overlapping semantics of `find_iter`. -/
def findFrom (s : List Nat) (i : Nat) : Option ACMatch := findFromAux (s.drop i) i

/-- Fuelled version of the opener loop in `PumlIter::next`: skip matches of
pattern 1 (a bare fence is never an opener) and return the first other
match. -/
def findOpenerF : Nat → List Nat → Nat → Option ACMatch
  | 0, _, _ => none
  | fuel + 1, s, i =>
    match findFrom s i with
    | none => none
    | some m => if m.pattern = 1 then findOpenerF fuel s m.stop else some m

/-- Opener search from offset `i`.  Fuel `s.length + 1` is enough because each
skipped match strictly advances the offset (proved in `findOpenerF_fuel`). -/
def findOpener (s : List Nat) (i : Nat) : Option ACMatch := findOpenerF (s.length + 1) s i

/-- The `Puml` struct of the source: one located block.  The source's `end`
field is called `stop` here (`end` is a Lean keyword). -/
structure Puml where
  start : Nat
  stop : Nat
  contents : List Nat
  ignore : Bool
  deriving DecidableEq, Repr

/-- Fuelled scan loop: `PumlIter::next` iterated to a list.  An opener with no
following match yields nothing (the `?` on `self.1.next()` for `end`). -/
def pumlsFromF : Nat → List Nat → Nat → List Puml
  | 0, _, _ => []
  | fuel + 1, s, i =>
    match findOpener s i with
    | none => []
    | some mS =>
      match findFrom s mS.stop with
      | none => []
      | some mE =>
        ⟨mS.start, mE.stop, seg s mS.stop mE.start, mS.pattern == 2⟩ ::
          pumlsFromF fuel s mE.stop

/-- All blocks the iterator yields when started at offset `i`. -/
def pumlsFrom (s : List Nat) (i : Nat) : List Puml := pumlsFromF (s.length + 1) s i

/-- The source's `find_pumls`: scan a whole buffer. -/
def find_pumls (s : List Nat) : List Puml := pumlsFrom s 0

/-- SipHash internal state (four 64-bit lanes, kept `< 2^64`). -/
structure SipState where
  v0 : Nat
  v1 : Nat
  v2 : Nat
  v3 : Nat

/-- The 64-bit modulus. -/
def W : Nat := 18446744073709551616

/-- 64-bit left rotation (for `x < 2^64`, `0 < n < 64`). -/
def rotl (x n : Nat) : Nat := (x * 2 ^ n) % W + x / 2 ^ (64 - n)

/-- One SipHash round. -/
def sipRound (st : SipState) : SipState :=
  let v0 := (st.v0 + st.v1) % W
  let v1 := rotl st.v1 13
  let v1 := Nat.xor v1 v0
  let v0 := rotl v0 32
  let v2 := (st.v2 + st.v3) % W
  let v3 := rotl st.v3 16
  let v3 := Nat.xor v3 v2
  let v0 := (v0 + v3) % W
  let v3 := rotl v3 21
  let v3 := Nat.xor v3 v0
  let v2 := (v2 + v1) % W
  let v1 := rotl v1 17
  let v1 := Nat.xor v1 v2
  let v2 := rotl v2 32
  ⟨v0, v1, v2, v3⟩

/-- Little-endian word value of up to 8 bytes. -/
def leWord (l : List Nat) : Nat := l.foldr (fun b acc => b + 256 * acc) 0

/-- Feed one 64-bit message word (v3 ^= m; round; v0 ^= m). -/
def sipProcessWord (st : SipState) (m : Nat) : SipState :=
  let st := { st with v3 := Nat.xor st.v3 m }
  let st := sipRound st
  { st with v0 := Nat.xor st.v0 m }

/-- Compress all whole 8-byte words of the message; return final state and
the remaining tail of fewer than 8 bytes. -/
def sipCompress (st : SipState) : List Nat → SipState × List Nat
  | b0 :: b1 :: b2 :: b3 :: b4 :: b5 :: b6 :: b7 :: rest =>
      sipCompress (sipProcessWord st (leWord [b0, b1, b2, b3, b4, b5, b6, b7])) rest
  | rest => (st, rest)

/-- SipHash-1-3 with keys (0, 0) over a byte sequence — Rust's
`std::collections::hash_map::DefaultHasher` fed via `Hasher::write`,
finished with `Hasher::finish`.  The initial lanes are the SipHash
constants (keys are zero); finalization xors the length byte word,
runs one compression round, xors `0xff` into `v2`, and runs three
finalization rounds. -/
def sipHash13 (data : List Nat) : Nat :=
  let st0 : SipState := ⟨8317987319222330741, 7237128888997146477,
                         7816392313619706465, 8387220255154660723⟩
  let p := sipCompress st0 data
  let b := (data.length % 256) * 2 ^ 56 + leWord p.2
  let st := sipProcessWord p.1 b
  let st := { st with v2 := Nat.xor st.v2 255 }
  let st := sipRound (sipRound (sipRound st))
  Nat.xor (Nat.xor st.v0 st.v1) (Nat.xor st.v2 st.v3)

/-- The 128-bit identity computed from content bytes alone: `Puml::uuid`.
`lhs` hashes the contents, `rhs` hashes the contents followed by the extra
`0u8` written before the second `finish`; `lhs << 64 | rhs` is
`lhs * 2^64 + rhs` since `rhs < 2^64`. -/
def uuidOf (contents : List Nat) : Nat :=
  sipHash13 contents * 2 ^ 64 + sipHash13 (contents ++ [0])

/-- The source's `Puml::uuid` method. -/
def Puml.uuid (p : Puml) : Nat := uuidOf p.contents

/-- Lowercase hex digit. -/
def hexDigit (n : Nat) : Char := if n < 10 then Char.ofNat (48 + n) else Char.ofNat (87 + n)

/-- Produce `k` hex digits of `n`, most significant first (zero padded). -/
def toHexPad (n : Nat) : Nat → List Char
  | 0 => []
  | k + 1 => toHexPad (n / 16) k ++ [hexDigit (n % 16)]

/-- Hyphenated rendering of a 128-bit value: `Uuid::from_u128(n).to_string()`. -/
def uuidChars (n : Nat) : List Char :=
  let h := toHexPad n 32
  h.take 8 ++ '-' :: (h.drop 8).take 4 ++ '-' :: (h.drop 12).take 4 ++ '-' ::
    (h.drop 16).take 4 ++ '-' :: h.drop 20

/-- UTF-8 bytes of the hyphenated uuid (all characters are ASCII). -/
def uuidBytes (n : Nat) : List Nat := (uuidChars n).map Char.toNat

/-- The source's `find_name`: strip the literal prefix `"@startuml "` and
keep the rest of the first line (everything before the first newline, or
everything when there is none). -/
def find_name (contents : List Nat) : Option (List Nat) :=
  if (bytes "@startuml ").isPrefixOf contents then
    some ((contents.drop 10).takeWhile (fun b => b != 10))
  else none

/-- Path prefix `"../".repeat(depth)` of the image reference. -/
def dotsPath (depth : Nat) : List Nat := (List.replicate depth (bytes "../")).flatten

/-- Replacement markup for a successfully rendered block: the format string
`"![{name}]({dots}{outdir}/{uuid}.svg)"` of `Puml::render`. -/
def imageRef (depth : Nat) (p : Puml) : List Nat :=
  bytes "![" ++ (find_name p.contents).getD [] ++ bytes "](" ++ dotsPath depth ++
    bytes "plantuml_images/" ++ uuidBytes p.uuid ++ bytes ".svg)"

/-- The source's `Puml::render`.  An ignore block is immediately rebuilt as a
plain (unqualified) plantuml fence around the contents; otherwise
`Compiler::compile` runs first — its success or failure is the abstracted
boolean `compileOk` (the filesystem- and process-level outcome) — and on
success the image reference is produced. -/
def Puml.render (p : Puml) (compileOk : Bool) (depth : Nat) : Except Unit (List Nat) :=
  if p.ignore then Except.ok (bytes "```plantuml\n" ++ p.contents ++ bytes "```")
  else if compileOk then Except.ok (imageRef depth p)
  else Except.error ()

/-- Result of the rewrite pass: the rebuilt text plus the observability
channel — one entry per failed block carrying the failing block's
`contents` (the `error!` line of the source) and the error value
(whose cause chain the source then logs with `warn!`). -/
structure RewriteResult (ε : Type) where
  output : List Nat
  logs : List (List Nat × ε)
  deriving Repr

/-- The loop body of `Compiler::replace_all`, over an explicit block list and
a per-block render outcome `r` (block index and block to outcome).  On
`ok`, the verbatim text up to the block start, then the replacement, and
the cursor moves to the block's `stop`; on `error`, only the verbatim text
is emitted, the failure is logged, and the cursor moves back to the
block's `start` so the original markup is re-emitted later. -/
def replaceAllGo {ε : Type} (r : Nat → Puml → Except ε (List Nat)) (s : List Nat) :
    List Puml → Nat → Nat → RewriteResult ε
  | [], _, prev => ⟨seg s prev s.length, []⟩
  | p :: rest, k, prev =>
    match r k p with
    | Except.ok new =>
      let a := replaceAllGo r s rest (k + 1) p.stop
      ⟨seg s prev p.start ++ new ++ a.output, a.logs⟩
    | Except.error e =>
      let a := replaceAllGo r s rest (k + 1) p.start
      ⟨seg s prev p.start ++ a.output, (p.contents, e) :: a.logs⟩

/-- The source's `Compiler::replace_all`: rewrite the whole buffer, with the
per-block render outcomes abstracted as `r`. -/
def replace_all {ε : Type} (r : Nat → Puml → Except ε (List Nat)) (s : List Nat) :
    RewriteResult ε :=
  replaceAllGo r s (find_pumls s) 0 0

/-- Prefix-only variant of the rewrite loop: emitted text, logs and final
cursor before the trailing `&s[previous_end_index..]` copy.  Used to state
decomposition lemmas about `replace_all`. -/
def goP {ε : Type} (r : Nat → Puml → Except ε (List Nat)) (s : List Nat) :
    List Puml → Nat → Nat → List Nat × List (List Nat × ε) × Nat
  | [], _, prev => ([], [], prev)
  | p :: rest, k, prev =>
    match r k p with
    | Except.ok new =>
      let a := goP r s rest (k + 1) p.stop
      (seg s prev p.start ++ new ++ a.1, a.2.1, a.2.2)
    | Except.error e =>
      let a := goP r s rest (k + 1) p.start
      (seg s prev p.start ++ a.1, (p.contents, e) :: a.2.1, a.2.2)

/-- The index ranges `replace_all` slices out of the original text, in order:
`&s[previous_end_index..link.start]` before every block and the final
`&s[previous_end_index..]`. -/
def sliceList {ε : Type} (r : Nat → Puml → Except ε (List Nat)) (s : List Nat) :
    List Puml → Nat → Nat → List (Nat × Nat)
  | [], _, prev => [(prev, s.length)]
  | p :: rest, k, prev =>
    (prev, p.start) ::
      (match r k p with
       | Except.ok _ => sliceList r s rest (k + 1) p.stop
       | Except.error _ => sliceList r s rest (k + 1) p.start)

/-- The `Target` struct handed to `Compiler::compile`. -/
structure Target where
  output : Nat
  input : List Nat
  name : Option (List Nat)
  output_type : String
  deriving Repr

/-- Artifact filename `filename.with_extension(target.output_type)` inside the
output directory: the hyphenated uuid plus the extension. -/
def outfileName (t : Target) : List Nat :=
  uuidBytes t.output ++ bytes "." ++ bytes t.output_type

/-- Outcome of one `Compiler::compile` call: the result, the resulting set of
files in the output directory, and how many times the external `plantuml`
renderer was invoked during the call. -/
structure CompileOutcome where
  ok : Bool
  fs : List (List Nat)
  invocations : Nat
  deriving Repr

/-- The source's `Compiler::compile`.  The output directory is modelled as the
list `fs` of artifact filenames present; `plantumlOk` abstracts the exit
status of the external `plantuml` process and `renameOk` the rename of the
produced file into the output directory (the temp-dir mechanics carry no
cache state).  If the artifact already exists the call returns `Ok`
immediately — the existence check is the entire cache. -/
def Compiler.compile (plantumlOk renameOk : Bool) (fs : List (List Nat)) (t : Target) :
    CompileOutcome :=
  let outfile := outfileName t
  if outfile ∈ fs then ⟨true, fs, 0⟩
  else if plantumlOk then
    (if renameOk then ⟨true, outfile :: fs, 1⟩ else ⟨false, fs, 1⟩)
  else ⟨false, fs, 1⟩

/-- A byte list is (valid) UTF-8: it is the flattened encoding of some
character sequence. -/
def Utf8 (l : List Nat) : Prop := ∃ cs : List Char, (cs.map utf8Char).flatten = l

/-- Offset `i` is a character boundary of `l`: the text splits there into two
valid UTF-8 halves. -/
def Boundary (l : List Nat) (i : Nat) : Prop :=
  ∃ l1 l2, l = l1 ++ l2 ∧ l1.length = i ∧ Utf8 l1 ∧ Utf8 l2

/-- Structural well-formedness of a scanned block with respect to its buffer:
there is an opening delimiter (the plain or the ignore fence, as recorded
by `ignore`) at `start`, some closing delimiter (any of the three pattern
literals, index `c`) ending exactly at `stop`, the block lies inside the
buffer, and `contents` is exactly the text strictly between the two
delimiters. -/
def BlockOk (s : List Nat) (p : Puml) : Prop :=
  ∃ c : Nat, c < 3 ∧
    (if p.ignore then pat2 else pat0).isPrefixOf (s.drop p.start) = true ∧
    (patOf c).isPrefixOf (s.drop (p.stop - (patOf c).length)) = true ∧
    p.start + (if p.ignore then pat2 else pat0).length + (patOf c).length ≤ p.stop ∧
    p.stop ≤ s.length ∧
    p.contents = seg s (p.start + (if p.ignore then pat2 else pat0).length)
      (p.stop - (patOf c).length)

/-- All four SipHash lanes are 64-bit values. -/
def BoundedSt (st : SipState) : Prop :=
  st.v0 < W ∧ st.v1 < W ∧ st.v2 < W ∧ st.v3 < W

lemma isPrefixOf_eq (l1 l2 : List Nat) : l1.isPrefixOf l2 = true ↔ l1 <+: l2 :=
  List.isPrefixOf_iff_prefix

lemma seg_zero_length (s : List Nat) : seg s 0 s.length = s := by
  simp [seg]

lemma seg_append (s : List Nat) (a b c : Nat) (hab : a ≤ b) (hbc : b ≤ c)
    (hc : c ≤ s.length) : seg s a c = seg s a b ++ seg s b c := by
  unfold seg
  have h1 : s.take c = s.take b ++ (s.take c).drop b := by
    have h2 : (s.take c).take b = s.take b := by
      rw [List.take_take, Nat.min_eq_left hbc]
    rw [← h2, List.take_append_drop]
  have hlen : a ≤ (s.take b).length := by
    simp only [List.length_take]
    omega
  conv_lhs => rw [h1]
  rw [List.drop_append_of_le_length hlen]

lemma pat0_len : pat0.length = 12 := by decide

lemma pat1_len : pat1.length = 3 := by decide

lemma pat2_len : pat2.length = 19 := by decide

lemma findFromAux_spec : ∀ (l : List Nat) (i : Nat) (m : ACMatch),
    findFromAux l i = some m →
    i ≤ m.start ∧ m.stop = m.start + (patOf m.pattern).length ∧ m.pattern < 3 ∧
      0 < (patOf m.pattern).length ∧
      (patOf m.pattern).isPrefixOf (l.drop (m.start - i)) = true := by
  intro l
  induction l with
  | nil => intro i m h; simp [findFromAux] at h
  | cons b rest ih =>
    intro i m h
    unfold findFromAux at h
    split_ifs at h with h2 h0 h1
    · cases h
      exact ⟨le_refl _, by simp [patOf, pat2_len], by simp [patOf],
        by simp [patOf, pat2_len], by simpa [patOf] using h2⟩
    · cases h
      exact ⟨le_refl _, by simp [patOf, pat0_len], by simp [patOf],
        by simp [patOf, pat0_len], by simpa [patOf] using h0⟩
    · cases h
      exact ⟨le_refl _, by simp [patOf, pat1_len], by simp [patOf],
        by simp [patOf, pat1_len], by simpa [patOf] using h1⟩
    · obtain ⟨ha, hb, hc, hd, he⟩ := ih (i + 1) m h
      refine ⟨by omega, hb, hc, hd, ?_⟩
      have : m.start - i = (m.start - (i + 1)) + 1 := by omega
      rw [this, List.drop_succ_cons]
      exact he

lemma findFrom_spec (s : List Nat) (i : Nat) (m : ACMatch) (h : findFrom s i = some m) :
    i ≤ m.start ∧ m.stop = m.start + (patOf m.pattern).length ∧ m.pattern < 3 ∧
      0 < (patOf m.pattern).length ∧
      (patOf m.pattern).isPrefixOf (s.drop m.start) = true ∧ m.stop ≤ s.length := by
  obtain ⟨ha, hb, hc, hd, he⟩ := findFromAux_spec (s.drop i) i m h
  have hdrop : (s.drop i).drop (m.start - i) = s.drop m.start := by
    rw [List.drop_drop]
    congr 1
    omega
  rw [hdrop] at he
  refine ⟨ha, hb, hc, hd, he, ?_⟩
  have hlen : (patOf m.pattern).length ≤ (s.drop m.start).length :=
    ((isPrefixOf_eq _ _).mp he).length_le
  rw [List.length_drop] at hlen
  omega

lemma findOpenerF_spec : ∀ (fuel : Nat) (s : List Nat) (i : Nat) (m : ACMatch),
    findOpenerF fuel s i = some m →
    i ≤ m.start ∧ m.stop = m.start + (patOf m.pattern).length ∧
      (m.pattern = 0 ∨ m.pattern = 2) ∧ 0 < (patOf m.pattern).length ∧
      (patOf m.pattern).isPrefixOf (s.drop m.start) = true ∧ m.stop ≤ s.length := by
  intro fuel
  induction fuel with
  | zero => intro s i m h; simp [findOpenerF] at h
  | succ fuel ih =>
    intro s i m h
    unfold findOpenerF at h
    cases hf : findFrom s i with
    | none => rw [hf] at h; cases h
    | some m' =>
      rw [hf] at h
      dsimp only at h
      obtain ⟨ha, hb, hc, hd, he, hf2⟩ := findFrom_spec s i m' hf
      by_cases hp : m'.pattern = 1
      · rw [if_pos hp] at h
        obtain ⟨ia, ib, ic, id2, ie, if2⟩ := ih s m'.stop m h
        exact ⟨by omega, ib, ic, id2, ie, if2⟩
      · rw [if_neg hp] at h
        cases h
        exact ⟨ha, hb, by omega, hd, he, hf2⟩

lemma findOpener_spec (s : List Nat) (i : Nat) (m : ACMatch) (h : findOpener s i = some m) :
    i ≤ m.start ∧ m.stop = m.start + (patOf m.pattern).length ∧
      (m.pattern = 0 ∨ m.pattern = 2) ∧ 0 < (patOf m.pattern).length ∧
      (patOf m.pattern).isPrefixOf (s.drop m.start) = true ∧ m.stop ≤ s.length :=
  findOpenerF_spec _ s i m h

lemma pumlsFromF_ok : ∀ (fuel : Nat) (s : List Nat) (i : Nat),
    ∀ p ∈ pumlsFromF fuel s i, i ≤ p.start ∧ p.start < p.stop ∧ BlockOk s p := by
  intro fuel
  induction fuel with
  | zero => intro s i p hp; simp [pumlsFromF] at hp
  | succ fuel ih =>
    intro s i p hp
    unfold pumlsFromF at hp
    cases h1 : findOpener s i with
    | none => rw [h1] at hp; simp at hp
    | some mS =>
      rw [h1] at hp
      dsimp only at hp
      cases h2 : findFrom s mS.stop with
      | none => rw [h2] at hp; simp at hp
      | some mE =>
        rw [h2] at hp
        dsimp only at hp
        obtain ⟨oa, ob, oc, od, oe, of2⟩ := findOpener_spec s i mS h1
        obtain ⟨fa, fb, fc, fd, fe, ff⟩ := findFrom_spec s mS.stop mE h2
        rcases List.mem_cons.mp hp with hph | hpt
        · subst hph
          dsimp only
          have hOL : (if ((mS.pattern == 2) : Bool) then pat2 else pat0) = patOf mS.pattern := by
            rcases oc with h0 | h2p
            · rw [h0]; simp [patOf]
            · rw [h2p]; simp [patOf]
          refine ⟨oa, by omega, mE.pattern, fc, ?_, ?_, ?_, ff, ?_⟩
          · rw [hOL]
            exact oe
          · have he : mE.stop - (patOf mE.pattern).length = mE.start := by omega
            rw [he]
            exact fe
          · rw [hOL]
            dsimp only
            omega
          · have e1 : mS.start + (if ((mS.pattern == 2) : Bool) then pat2 else pat0).length
                = mS.stop := by rw [hOL]; omega
            have e2 : mE.stop - (patOf mE.pattern).length = mE.start := by omega
            rw [e1, e2]
        · obtain ⟨ta, tb, tc⟩ := ih s mE.stop p hpt
          exact ⟨by omega, tb, tc⟩

lemma pumlsFromF_pairwise : ∀ (fuel : Nat) (s : List Nat) (i : Nat),
    (pumlsFromF fuel s i).Pairwise (fun a b => a.stop ≤ b.start) := by
  intro fuel
  induction fuel with
  | zero => intro s i; simp [pumlsFromF]
  | succ fuel ih =>
    intro s i
    unfold pumlsFromF
    cases h1 : findOpener s i with
    | none => simp
    | some mS =>
      dsimp only
      cases h2 : findFrom s mS.stop with
      | none => simp
      | some mE =>
        dsimp only
        refine List.pairwise_cons.mpr ⟨?_, ih s mE.stop⟩
        intro q hq
        exact (pumlsFromF_ok fuel s mE.stop q hq).1

lemma find_pumls_ok (s : List Nat) : ∀ p ∈ find_pumls s, p.start < p.stop ∧ BlockOk s p := by
  intro p hp
  obtain ⟨_, hb, hc⟩ := pumlsFromF_ok _ s 0 p hp
  exact ⟨hb, hc⟩

lemma find_pumls_pairwise (s : List Nat) :
    (find_pumls s).Pairwise (fun a b => a.stop ≤ b.start) :=
  pumlsFromF_pairwise _ s 0

lemma replaceAllGo_eq_goP {ε : Type} (r : Nat → Puml → Except ε (List Nat)) (s : List Nat) :
    ∀ (bs : List Puml) (k prev : Nat),
      replaceAllGo r s bs k prev =
        ⟨(goP r s bs k prev).1 ++ seg s (goP r s bs k prev).2.2 s.length,
         (goP r s bs k prev).2.1⟩ := by
  intro bs
  induction bs with
  | nil => intro k prev; simp [replaceAllGo, goP]
  | cons p rest ih =>
    intro k prev
    unfold replaceAllGo goP
    cases hr : r k p with
    | ok new =>
      dsimp only
      rw [ih]
      simp [List.append_assoc]
    | error e =>
      dsimp only
      rw [ih]
      simp [List.append_assoc]

lemma goP_cons_ok {ε : Type} (r : Nat → Puml → Except ε (List Nat)) (s : List Nat)
    {p : Puml} {k : Nat} {new : List Nat} (rest : List Puml) (prev : Nat)
    (h : r k p = Except.ok new) :
    goP r s (p :: rest) k prev =
      (seg s prev p.start ++ new ++ (goP r s rest (k + 1) p.stop).1,
       (goP r s rest (k + 1) p.stop).2.1, (goP r s rest (k + 1) p.stop).2.2) := by
  simp only [goP, h]

lemma goP_cons_error {ε : Type} (r : Nat → Puml → Except ε (List Nat)) (s : List Nat)
    {p : Puml} {k : Nat} {e : ε} (rest : List Puml) (prev : Nat)
    (h : r k p = Except.error e) :
    goP r s (p :: rest) k prev =
      (seg s prev p.start ++ (goP r s rest (k + 1) p.start).1,
       (p.contents, e) :: (goP r s rest (k + 1) p.start).2.1,
       (goP r s rest (k + 1) p.start).2.2) := by
  simp only [goP, h]

lemma replaceAllGo_cons_ok {ε : Type} (r : Nat → Puml → Except ε (List Nat)) (s : List Nat)
    {p : Puml} {k : Nat} {new : List Nat} (rest : List Puml) (prev : Nat)
    (h : r k p = Except.ok new) :
    replaceAllGo r s (p :: rest) k prev =
      ⟨seg s prev p.start ++ new ++ (replaceAllGo r s rest (k + 1) p.stop).output,
       (replaceAllGo r s rest (k + 1) p.stop).logs⟩ := by
  simp only [replaceAllGo, h]

lemma replaceAllGo_cons_error {ε : Type} (r : Nat → Puml → Except ε (List Nat)) (s : List Nat)
    {p : Puml} {k : Nat} {e : ε} (rest : List Puml) (prev : Nat)
    (h : r k p = Except.error e) :
    replaceAllGo r s (p :: rest) k prev =
      ⟨seg s prev p.start ++ (replaceAllGo r s rest (k + 1) p.start).output,
       (p.contents, e) :: (replaceAllGo r s rest (k + 1) p.start).logs⟩ := by
  simp only [replaceAllGo, h]

lemma goP_append {ε : Type} (r : Nat → Puml → Except ε (List Nat)) (s : List Nat) :
    ∀ (bs1 bs2 : List Puml) (k prev : Nat),
      goP r s (bs1 ++ bs2) k prev =
        ((goP r s bs1 k prev).1 ++
           (goP r s bs2 (k + bs1.length) (goP r s bs1 k prev).2.2).1,
         (goP r s bs1 k prev).2.1 ++
           (goP r s bs2 (k + bs1.length) (goP r s bs1 k prev).2.2).2.1,
         (goP r s bs2 (k + bs1.length) (goP r s bs1 k prev).2.2).2.2) := by
  intro bs1
  induction bs1 with
  | nil => intro bs2 k prev; simp [goP]
  | cons p rest ih =>
    intro bs2 k prev
    rw [List.cons_append]
    cases hr : r k p with
    | ok new =>
      rw [goP_cons_ok r s (rest ++ bs2) prev hr, goP_cons_ok r s rest prev hr, ih]
      have hk : k + 1 + rest.length = k + (rest.length + 1) := by omega
      simp only [List.length_cons, hk, List.append_assoc]
    | error e =>
      rw [goP_cons_error r s (rest ++ bs2) prev hr, goP_cons_error r s rest prev hr, ih]
      have hk : k + 1 + rest.length = k + (rest.length + 1) := by omega
      simp only [List.length_cons, hk, List.append_assoc, List.cons_append]

lemma replaceAllGo_cons_output {ε : Type} (r : Nat → Puml → Except ε (List Nat)) (s : List Nat)
    (q : Puml) (rest : List Puml) (k prev : Nat) :
    ∃ T, (replaceAllGo r s (q :: rest) k prev).output = seg s prev q.start ++ T := by
  cases hr : r k q with
  | ok new =>
    refine ⟨new ++ (replaceAllGo r s rest (k + 1) q.stop).output, ?_⟩
    rw [replaceAllGo_cons_ok r s rest prev hr]
    simp [List.append_assoc]
  | error e =>
    refine ⟨(replaceAllGo r s rest (k + 1) q.start).output, ?_⟩
    rw [replaceAllGo_cons_error r s rest prev hr]

lemma utf8Char_cases (c : Char) :
    (utf8Char c = [c.toNat] ∧ c.toNat < 128) ∨ (∀ b ∈ utf8Char c, 128 ≤ b) := by
  unfold utf8Char
  by_cases h1 : c.toNat < 128
  · left
    rw [if_pos h1]
    exact ⟨rfl, h1⟩
  · right
    rw [if_neg h1]
    intro b hb
    split_ifs at hb with h2 h3
    · simp only [List.mem_cons, List.not_mem_nil, or_false] at hb
      rcases hb with rfl | rfl <;> omega
    · simp only [List.mem_cons, List.not_mem_nil, or_false] at hb
      rcases hb with rfl | rfl | rfl <;> omega
    · simp only [List.mem_cons, List.not_mem_nil, or_false] at hb
      rcases hb with rfl | rfl | rfl | rfl <;> omega

lemma utf8_nil : Utf8 ([] : List Nat) := ⟨[], rfl⟩

lemma utf8_cons_char (c : Char) {l : List Nat} (h : Utf8 l) : Utf8 (utf8Char c ++ l) := by
  obtain ⟨cs, hcs⟩ := h
  exact ⟨c :: cs, by simp [hcs]⟩

lemma boundary_zero {l : List Nat} (h : Utf8 l) : Boundary l 0 :=
  ⟨[], l, rfl, rfl, utf8_nil, h⟩

lemma boundary_length {l : List Nat} (h : Utf8 l) : Boundary l l.length :=
  ⟨l, [], by simp, rfl, h, utf8_nil⟩

lemma boundary_shift (c : Char) {l : List Nat} {j : Nat} (h : Boundary l j) :
    Boundary (utf8Char c ++ l) ((utf8Char c).length + j) := by
  obtain ⟨l1, l2, he, hl, h1, h2⟩ := h
  exact ⟨utf8Char c ++ l1, l2, by simp [he], by simp [hl], utf8_cons_char c h1, h2⟩

lemma ascii_boundary_chunks :
    ∀ (cs : List Char) (pre : List Nat) (b : Nat) (post : List Nat),
      (cs.map utf8Char).flatten = pre ++ b :: post → b < 128 →
      Boundary ((cs.map utf8Char).flatten) pre.length ∧
        Boundary ((cs.map utf8Char).flatten) (pre.length + 1) := by
  intro cs
  induction cs with
  | nil =>
    intro pre b post he _
    simp only [List.map_nil, List.flatten_nil] at he
    exact absurd he (by simp)
  | cons c cs ih =>
    intro pre b post he hb
    simp only [List.map_cons, List.flatten_cons] at he ⊢
    rcases utf8Char_cases c with ⟨hc, _⟩ | hge
    · -- single ASCII byte chunk
      cases pre with
      | nil =>
        constructor
        · exact boundary_zero (utf8_cons_char c ⟨cs, rfl⟩)
        · have h1 : Boundary (utf8Char c ++ (cs.map utf8Char).flatten)
              ((utf8Char c).length + 0) := boundary_shift c (boundary_zero ⟨cs, rfl⟩)
          rw [hc] at h1 ⊢
          simpa using h1
      | cons x pre' =>
        rw [hc] at he
        injection he with hx htail
        obtain ⟨b1, b2⟩ := ih pre' b post htail hb
        have s1 := boundary_shift c b1
        have s2 := boundary_shift c b2
        rw [hc] at s1 s2
        constructor
        · rw [hc]
          simpa [Nat.add_comm] using s1
        · rw [hc]
          have : (1 : Nat) + (pre'.length + 1) = (x :: pre').length + 1 := by
            simp [Nat.add_comm]
          simpa [this] using s2
    · -- multi-byte chunk: the ASCII byte b cannot lie inside it
      by_cases hlen : pre.length < (utf8Char c).length
      · exfalso
        have hidx : (pre ++ b :: post)[pre.length]? = some b := by
          rw [List.getElem?_append_right (le_refl _)]
          simp
        rw [← he] at hidx
        have hidx2 : (utf8Char c ++ (cs.map utf8Char).flatten)[pre.length]? =
            (utf8Char c)[pre.length]? := by
          rw [List.getElem?_append]
          exact if_pos hlen
        rw [hidx2] at hidx
        have hmem : b ∈ utf8Char c := by
          have := List.getElem?_mem hidx
          exact this
        exact absurd hb (by have := hge b hmem; omega)
      · push_neg at hlen
        rcases List.append_eq_append_iff.mp he with ⟨a', ha1, ha2⟩ | ⟨c', hc1, hc2⟩
        · -- pre = chunk ++ a'
          obtain ⟨b1, b2⟩ := ih a' b post ha2 hb
          have s1 := boundary_shift c b1
          have s2 := boundary_shift c b2
          have hplen : pre.length = (utf8Char c).length + a'.length := by
            rw [ha1]; simp
          constructor
          · rw [hplen]; exact s1
          · rw [hplen, Nat.add_assoc]; exact s2
        · -- chunk = pre ++ c' with chunk length ≤ pre length forces c' = []
          have hc'nil : c' = [] := by
            have h1 : (utf8Char c).length = pre.length + c'.length := by
              rw [hc1]; simp
            have : c'.length = 0 := by omega
            exact List.eq_nil_of_length_eq_zero this
          subst hc'nil
          simp only [List.nil_append] at hc2
          rw [List.append_nil] at hc1
          obtain ⟨b1, b2⟩ := ih [] b post hc2.symm hb
          have s1 := boundary_shift c b1
          have s2 := boundary_shift c b2
          have hplen : pre.length = (utf8Char c).length := by rw [hc1]
          constructor
          · rw [hplen]
            simpa using s1
          · rw [hplen]
            simpa using s2

lemma ascii_boundary {s : List Nat} (hu : Utf8 s) {pre : List Nat} {b : Nat} {post : List Nat}
    (he : s = pre ++ b :: post) (hb : b < 128) :
    Boundary s pre.length ∧ Boundary s (pre.length + 1) := by
  obtain ⟨cs, hcs⟩ := hu
  subst hcs
  exact ascii_boundary_chunks cs pre b post he hb

lemma pat0_eq : pat0 = [96, 96, 96, 112, 108, 97, 110, 116, 117, 109, 108, 10] := by decide

lemma pat1_eq : pat1 = [96, 96, 96] := by decide

lemma pat2_eq : pat2 = [96, 96, 96, 112, 108, 97, 110, 116, 117, 109, 108, 44,
    105, 103, 110, 111, 114, 101, 10] := by decide

lemma match_boundaries {s : List Nat} (hu : Utf8 s) {patr : List Nat} {a : Nat}
    (hp : patr.isPrefixOf (s.drop a) = true) (hl : a + patr.length ≤ s.length)
    (hpat : patr = pat0 ∨ patr = pat1 ∨ patr = pat2) :
    Boundary s a ∧ Boundary s (a + patr.length) := by
  obtain ⟨rest, hrest⟩ := (isPrefixOf_eq _ _).mp hp
  have hs : s = s.take a ++ (patr ++ rest) := by
    rw [hrest, List.take_append_drop]
  have hpos : 0 < patr.length := by
    rcases hpat with rfl | rfl | rfl <;> decide
  have hta : (s.take a).length = a := by
    simp only [List.length_take]
    omega
  rcases hpat with rfl | rfl | rfl
  · constructor
    · have hh : s = s.take a ++ 96 ::
          ([96, 96, 112, 108, 97, 110, 116, 117, 109, 108, 10] ++ rest) := by
        conv_lhs => rw [hs]
        rw [pat0_eq]
        simp
      have hb := (ascii_boundary hu hh (by omega)).1
      rwa [hta] at hb
    · have hh : s = (s.take a ++ [96, 96, 96, 112, 108, 97, 110, 116, 117, 109, 108]) ++
          10 :: rest := by
        conv_lhs => rw [hs]
        rw [pat0_eq]
        simp
      have hb := (ascii_boundary hu hh (by omega)).2
      have hlen2 : (s.take a ++
          [96, 96, 96, 112, 108, 97, 110, 116, 117, 109, 108]).length + 1 =
          a + pat0.length := by
        simp [hta, pat0_len]
      rwa [hlen2] at hb
  · constructor
    · have hh : s = s.take a ++ 96 :: ([96, 96] ++ rest) := by
        conv_lhs => rw [hs]
        rw [pat1_eq]
        simp
      have hb := (ascii_boundary hu hh (by omega)).1
      rwa [hta] at hb
    · have hh : s = (s.take a ++ [96, 96]) ++ 96 :: rest := by
        conv_lhs => rw [hs]
        rw [pat1_eq]
        simp
      have hb := (ascii_boundary hu hh (by omega)).2
      have hlen2 : (s.take a ++ [96, 96]).length + 1 = a + pat1.length := by
        simp [hta, pat1_len]
      rwa [hlen2] at hb
  · constructor
    · have hh : s = s.take a ++ 96 :: ([96, 96, 112, 108, 97, 110, 116, 117, 109, 108, 44,
          105, 103, 110, 111, 114, 101, 10] ++ rest) := by
        conv_lhs => rw [hs]
        rw [pat2_eq]
        simp
      have hb := (ascii_boundary hu hh (by omega)).1
      rwa [hta] at hb
    · have hh : s = (s.take a ++ [96, 96, 96, 112, 108, 97, 110, 116, 117, 109, 108, 44,
          105, 103, 110, 111, 114, 101]) ++ 10 :: rest := by
        conv_lhs => rw [hs]
        rw [pat2_eq]
        simp
      have hb := (ascii_boundary hu hh (by omega)).2
      have hlen2 : (s.take a ++ [96, 96, 96, 112, 108, 97, 110, 116, 117, 109, 108, 44,
          105, 103, 110, 111, 114, 101]).length + 1 = a + pat2.length := by
        simp [hta, pat2_len]
      rwa [hlen2] at hb

lemma block_boundaries {s : List Nat} (hu : Utf8 s) {p : Puml} (hp : p ∈ find_pumls s) :
    Boundary s p.start ∧ Boundary s p.stop ∧
      ∃ a b, a ≤ b ∧ b ≤ s.length ∧ p.contents = seg s a b ∧
        Boundary s a ∧ Boundary s b := by
  obtain ⟨hlt, c, hc3, hop, hcl, hcontained, hslen, hcont⟩ := find_pumls_ok s p hp
  have hopener : (if p.ignore then pat2 else pat0) = pat0 ∨
      (if p.ignore then pat2 else pat0) = pat1 ∨ (if p.ignore then pat2 else pat0) = pat2 := by
    cases p.ignore <;> simp
  have hcloser : patOf c = pat0 ∨ patOf c = pat1 ∨ patOf c = pat2 := by
    interval_cases c <;> simp [patOf]
  have hob : p.start + (if p.ignore then pat2 else pat0).length ≤ s.length := by omega
  have hcb : (p.stop - (patOf c).length) + (patOf c).length ≤ s.length := by omega
  obtain ⟨bo1, bo2⟩ := match_boundaries hu hop hob hopener
  obtain ⟨bc1, bc2⟩ := match_boundaries hu hcl hcb hcloser
  have hstop : (p.stop - (patOf c).length) + (patOf c).length = p.stop := by omega
  rw [hstop] at bc2
  refine ⟨bo1, bc2, p.start + (if p.ignore then pat2 else pat0).length,
    p.stop - (patOf c).length, by omega, by omega, hcont, bo2, bc1⟩

lemma sliceList_ok {ε : Type} (r : Nat → Puml → Except ε (List Nat)) (s : List Nat)
    (hu : Utf8 s) :
    ∀ (blocks : List Puml) (k prev : Nat),
      prev ≤ s.length → Boundary s prev →
      (∀ p ∈ blocks, prev ≤ p.start ∧ p.start < p.stop ∧ p.stop ≤ s.length ∧
        Boundary s p.start ∧ Boundary s p.stop) →
      blocks.Pairwise (fun a b => a.stop ≤ b.start) →
      ∀ q ∈ sliceList r s blocks k prev,
        q.1 ≤ q.2 ∧ q.2 ≤ s.length ∧ Boundary s q.1 ∧ Boundary s q.2 := by
  intro blocks
  induction blocks with
  | nil =>
    intro k prev h1 h2 h3 h4 q hq
    simp only [sliceList, List.mem_singleton] at hq
    subst hq
    exact ⟨h1, le_refl _, h2, boundary_length hu⟩
  | cons p rest ih =>
    intro k prev h1 h2 h3 h4 q hq
    obtain ⟨hp1, hp2, hp3, hp4, hp5⟩ := h3 p (by simp)
    unfold sliceList at hq
    rcases List.mem_cons.mp hq with rfl | hq'
    · exact ⟨hp1, by omega, h2, hp4⟩
    · have hpair := List.pairwise_cons.mp h4
      cases hr : r k p with
      | ok new =>
        rw [hr] at hq'
        refine ih (k + 1) p.stop hp3 hp5 ?_ hpair.2 q hq'
        intro p' hp'
        obtain ⟨_, c2, c3, c4, c5⟩ := h3 p' (by simp [hp'])
        exact ⟨hpair.1 p' hp', c2, c3, c4, c5⟩
      | error e =>
        rw [hr] at hq'
        refine ih (k + 1) p.start (by omega) hp4 ?_ hpair.2 q hq'
        intro p' hp'
        obtain ⟨_, c2, c3, c4, c5⟩ := h3 p' (by simp [hp'])
        have := hpair.1 p' hp'
        exact ⟨by omega, c2, c3, c4, c5⟩

lemma W_pos : 0 < W := by decide

lemma W_eq : W = 2 ^ 64 := by decide

lemma rotl_lt {x : Nat} (n : Nat) (hx : x < W) (h1 : 0 < n) (h2 : n < 64) :
    rotl x n < W := by
  unfold rotl
  have hW : W = 2 ^ (64 - n) * 2 ^ n := by
    rw [W_eq, ← pow_add]
    congr 1
    omega
  have hm : x * 2 ^ n % W = (x % 2 ^ (64 - n)) * 2 ^ n := by
    rw [hW]
    exact Nat.mul_mod_mul_right (2 ^ n) x (2 ^ (64 - n))
  rw [hm, hW]
  have hd : x / 2 ^ (64 - n) < 2 ^ n := by
    rw [Nat.div_lt_iff_lt_mul (by positivity)]
    calc x < W := hx
    _ = 2 ^ n * 2 ^ (64 - n) := by rw [hW]; ring
  have hmod : x % 2 ^ (64 - n) < 2 ^ (64 - n) := Nat.mod_lt _ (by positivity)
  have hmul : (x % 2 ^ (64 - n)) * 2 ^ n ≤ (2 ^ (64 - n) - 1) * 2 ^ n :=
    Nat.mul_le_mul_right _ (by omega)
  have hfin : (2 ^ (64 - n) - 1) * 2 ^ n + 2 ^ n = 2 ^ (64 - n) * 2 ^ n := by
    rw [Nat.sub_one_mul, Nat.sub_add_cancel]
    exact Nat.le_mul_of_pos_left _ (by positivity)
  omega

lemma xor_lt {x y : Nat} (hx : x < W) (hy : y < W) : Nat.xor x y < W := by
  rw [W_eq] at *
  exact Nat.xor_lt_two_pow hx hy

lemma sipRound_bounded {st : SipState} (h : BoundedSt st) : BoundedSt (sipRound st) := by
  obtain ⟨h0, h1, h2, h3⟩ := h
  unfold sipRound
  dsimp only
  refine ⟨Nat.mod_lt _ W_pos, ?_, ?_, ?_⟩
  · exact xor_lt (rotl_lt 17 (xor_lt (rotl_lt 13 h1 (by omega) (by omega))
      (Nat.mod_lt _ W_pos)) (by omega) (by omega)) (Nat.mod_lt _ W_pos)
  · exact rotl_lt 32 (Nat.mod_lt _ W_pos) (by omega) (by omega)
  · exact xor_lt (rotl_lt 21 (xor_lt (rotl_lt 16 h3 (by omega) (by omega))
      (Nat.mod_lt _ W_pos)) (by omega) (by omega)) (Nat.mod_lt _ W_pos)

lemma sipProcessWord_bounded {st : SipState} {m : Nat} (h : BoundedSt st) (hm : m < W) :
    BoundedSt (sipProcessWord st m) := by
  obtain ⟨h0, h1, h2, h3⟩ := h
  unfold sipProcessWord
  dsimp only
  have hr : BoundedSt (sipRound { st with v3 := Nat.xor st.v3 m }) :=
    sipRound_bounded ⟨h0, h1, h2, xor_lt h3 hm⟩
  obtain ⟨r0, r1, r2, r3⟩ := hr
  exact ⟨xor_lt r0 hm, r1, r2, r3⟩

lemma leWord_lt : ∀ (l : List Nat), (∀ b ∈ l, b < 256) → leWord l < 256 ^ l.length := by
  intro l
  induction l with
  | nil => intro _; simp [leWord]
  | cons b t ih =>
    intro h
    have hb : b < 256 := h b (by simp)
    have ht : leWord t < 256 ^ t.length := ih (fun x hx => h x (by simp [hx]))
    have : leWord (b :: t) = b + 256 * leWord t := rfl
    rw [this, List.length_cons, pow_succ]
    have h2 : 256 * leWord t ≤ 256 * (256 ^ t.length - 1) := by
      apply Nat.mul_le_mul_left
      omega
    have h3 : 0 < 256 ^ t.length := by positivity
    calc b + 256 * leWord t ≤ 255 + 256 * (256 ^ t.length - 1) := by omega
    _ < 256 ^ t.length * 256 := by
      rw [Nat.mul_sub_one]
      have : 256 ≤ 256 * 256 ^ t.length := by
        have := Nat.le_mul_of_pos_right 256 h3
        omega
      omega

lemma sipCompress_spec : ∀ (l : List Nat) (st : SipState),
    (∀ b ∈ l, b < 256) → BoundedSt st →
    BoundedSt (sipCompress st l).1 ∧ (sipCompress st l).2.length < 8 ∧
      (∀ b ∈ (sipCompress st l).2, b < 256) := by
  intro l st
  induction st, l using sipCompress.induct with
  | case1 st b0 b1 b2 b3 b4 b5 b6 b7 rest ih =>
    intro hb hst
    have hw : leWord [b0, b1, b2, b3, b4, b5, b6, b7] < W := by
      have h8 : ∀ b ∈ [b0, b1, b2, b3, b4, b5, b6, b7], b < 256 := by
        intro b hmem
        apply hb
        simp only [List.mem_cons, List.not_mem_nil, or_false] at hmem ⊢
        tauto
      have := leWord_lt [b0, b1, b2, b3, b4, b5, b6, b7] h8
      rw [W_eq]
      calc leWord [b0, b1, b2, b3, b4, b5, b6, b7] < 256 ^ 8 := this
      _ ≤ 2 ^ 64 := by norm_num
    have hrest : ∀ b ∈ rest, b < 256 := by
      intro b hmem
      apply hb
      simp [hmem]
    have hst2 : BoundedSt (sipProcessWord st (leWord [b0, b1, b2, b3, b4, b5, b6, b7])) :=
      sipProcessWord_bounded hst hw
    have := ih hrest hst2
    simpa [sipCompress] using this
  | case2 st rest h =>
    intro hb hst
    rcases rest with _ | ⟨b0, _ | ⟨b1, _ | ⟨b2, _ | ⟨b3, _ | ⟨b4, _ | ⟨b5, _ | ⟨b6, _ | ⟨b7, rr⟩⟩⟩⟩⟩⟩⟩⟩
    all_goals first
      | exact absurd (h _ _ _ _ _ _ _ _ _ rfl) (by simp)
      | exact ⟨by simpa [sipCompress] using hst, by simp [sipCompress],
          by intro b hmem; simp only [sipCompress] at hmem; exact hb b hmem⟩

lemma final_xor_lt {st : SipState} (h : BoundedSt st) :
    Nat.xor (Nat.xor st.v0 st.v1) (Nat.xor st.v2 st.v3) < W :=
  xor_lt (xor_lt h.1 h.2.1) (xor_lt h.2.2.1 h.2.2.2)

lemma sipHash13_lt (data : List Nat) (hd : ∀ b ∈ data, b < 256) : sipHash13 data < W := by
  have hinit : BoundedSt (⟨8317987319222330741, 7237128888997146477,
      7816392313619706465, 8387220255154660723⟩ : SipState) :=
    ⟨by decide, by decide, by decide, by decide⟩
  obtain ⟨hst, hlen, hbytes⟩ := sipCompress_spec data _ hd hinit
  have hb : data.length % 256 * 2 ^ 56 +
      leWord (sipCompress (⟨8317987319222330741, 7237128888997146477,
        7816392313619706465, 8387220255154660723⟩ : SipState) data).2 < W := by
    have h1 : data.length % 256 ≤ 255 := by omega
    have h2 := leWord_lt _ hbytes
    have h3 : (256 : Nat) ^ (sipCompress (⟨8317987319222330741, 7237128888997146477,
        7816392313619706465, 8387220255154660723⟩ : SipState) data).2.length ≤ 256 ^ 7 := by
      apply Nat.pow_le_pow_right (by omega)
      omega
    have h4 : (256 : Nat) ^ 7 = 72057594037927936 := by norm_num
    have h5 : (2 : Nat) ^ 56 = 72057594037927936 := by norm_num
    have h6 : W = 18446744073709551616 := rfl
    omega
  have hY := sipProcessWord_bounded hst hb
  unfold sipHash13
  dsimp only
  exact final_xor_lt (sipRound_bounded (sipRound_bounded (sipRound_bounded
    ⟨hY.1, hY.2.1, xor_lt hY.2.2.1 (by decide), hY.2.2.2⟩)))

lemma uuidOf_lt (c : List Nat) (hc : ∀ b ∈ c, b < 256) : uuidOf c < 2 ^ 128 := by
  unfold uuidOf
  have h1 : sipHash13 c < W := sipHash13_lt c hc
  have h2 : sipHash13 (c ++ [0]) < W := by
    apply sipHash13_lt
    intro b hb
    rcases List.mem_append.mp hb with h | h
    · exact hc b h
    · simp only [List.mem_singleton] at h
      omega
  have hW : W = 18446744073709551616 := rfl
  have h128 : (2 : Nat) ^ 128 = 340282366920938463463374607431768211456 := by norm_num
  have h64 : (2 : Nat) ^ 64 = 18446744073709551616 := by norm_num
  rw [h128, h64]
  rw [hW] at h1 h2
  nlinarith

lemma takeWhile_newline_split : ∀ (m : List Nat),
    10 ∉ m.takeWhile (fun b => b != 10) ∧
      (m = m.takeWhile (fun b => b != 10) ∨
        ∃ t, m = m.takeWhile (fun b => b != 10) ++ 10 :: t) := by
  intro m
  induction m with
  | nil => simp
  | cons b t ih =>
    obtain ⟨ih1, ih2⟩ := ih
    by_cases hb : b = 10
    · subst hb
      refine ⟨by simp [List.takeWhile_cons], Or.inr ⟨t, by simp [List.takeWhile_cons]⟩⟩
    · have hbne : (b != 10) = true := by simpa using hb
      rw [List.takeWhile_cons, hbne]
      refine ⟨?_, ?_⟩
      · simp only [if_true, List.mem_cons]
        intro hmem
        rcases hmem with h | h
        · exact hb h.symm
        · exact ih1 h
      · rcases ih2 with h | ⟨t2, h2⟩
        · left
          simp only [if_true, List.cons_inj_right]
          exact h
        · right
          exact ⟨t2, by simp only [if_true, List.cons_append, List.cons_inj_right]; exact h2⟩

/-- Claim C4: the 128-bit identity is a pure, deterministic function of the
content bytes alone — blocks at different positions or with different
`ignore` flags but byte-identical contents get the same `uuid`; for byte
sequences the value fits in 128 bits; and the model reproduces, from the
content bytes alone, the exact uuid string hard-coded in the repository's
`replace` test (`3a1375f3-0f44-4b13-f722-de95a4661ce7`), witnessing
stability across runs and processes. -/
theorem c4_uuid_pure_of_content :
    (∀ (s1 e1 : Nat) (i1 : Bool) (s2 e2 : Nat) (i2 : Bool) (c : List Nat),
        Puml.uuid ⟨s1, e1, c, i1⟩ = Puml.uuid ⟨s2, e2, c, i2⟩) ∧
    (∀ c : List Nat, (∀ b ∈ c, b < 256) → uuidOf c < 2 ^ 128) ∧
    uuidBytes (Puml.uuid ⟨176, 228, bytes "@startuml\nFoo <-> Bar\n@enduml\n", false⟩) =
      bytes "3a1375f3-0f44-4b13-f722-de95a4661ce7" :=
  ⟨fun _ _ _ _ _ _ _ => rfl, uuidOf_lt, by decide⟩

/-- Witness for C4: the bound applies at a concrete byte sequence. -/
theorem c4_uuid_pure_of_content_witness : uuidOf (bytes "@enduml\n") < 2 ^ 128 :=
  c4_uuid_pure_of_content.2.1 (bytes "@enduml\n") (by decide)

/-- Claim C6: when the scan finds no delimiter occurrence, the rewrite output
is the input, byte for byte, and nothing is logged. -/
theorem c6_no_blocks_output_identity {ε : Type} (r : Nat → Puml → Except ε (List Nat))
    (s : List Nat) (h : find_pumls s = []) :
    (replace_all r s).output = s ∧ (replace_all r s).logs = [] := by
  unfold replace_all
  rw [h]
  simp [replaceAllGo, seg_zero_length]

/-- Witness for C6 at a concrete fence-free input. -/
theorem c6_no_blocks_output_identity_witness :
    (replace_all (fun _ _ => (Except.error () : Except Unit (List Nat)))
        (bytes "just ordinary text")).output = bytes "just ordinary text" ∧
      (replace_all (fun _ _ => (Except.error () : Except Unit (List Nat)))
        (bytes "just ordinary text")).logs = [] :=
  c6_no_blocks_output_identity _ _ (by decide)

/-- Claim C7: an opener with no further delimiter occurrence after it yields
no block at all (no partial block, and the model is total, so no error
either), and the rewrite then emits the remaining text from the cursor
verbatim — the trailing text is never treated as block content. -/
theorem c7_unterminated_opener_dropped (s : List Nat) (i : Nat) (m : ACMatch)
    (h1 : findOpener s i = some m) (h2 : findFrom s m.stop = none) :
    pumlsFrom s i = [] ∧
      ∀ {ε : Type} (r : Nat → Puml → Except ε (List Nat)) (k prev : Nat),
        (replaceAllGo r s (pumlsFrom s i) k prev).output = seg s prev s.length := by
  have hnil : ∀ fuel, pumlsFromF (fuel + 1) s i = [] := by
    intro fuel
    unfold pumlsFromF
    rw [h1]
    dsimp only
    rw [h2]
  have hmain : pumlsFrom s i = [] := by
    unfold pumlsFrom
    exact hnil s.length
  refine ⟨hmain, ?_⟩
  intro ε r k prev
  rw [hmain]
  simp [replaceAllGo]

/-- Witness for C7 at a concrete buffer whose opener is never closed. -/
theorem c7_unterminated_opener_dropped_witness :
    pumlsFrom (bytes "A\n```plantuml\nunclosed") 0 = [] ∧
      ∀ {ε : Type} (r : Nat → Puml → Except ε (List Nat)) (k prev : Nat),
        (replaceAllGo r (bytes "A\n```plantuml\nunclosed")
            (pumlsFrom (bytes "A\n```plantuml\nunclosed") 0) k prev).output =
          seg (bytes "A\n```plantuml\nunclosed") prev
            (bytes "A\n```plantuml\nunclosed").length :=
  c7_unterminated_opener_dropped _ 0 ⟨0, 2, 14⟩ (by decide) (by decide)

/-- Claim C8: every scanned block satisfies `start < stop`, its delimiters are
really in the buffer at `start` and ending at `stop` with the contents
exactly the text strictly between them (`BlockOk`), and the block sequence
is ordered with no overlap (each block ends at or before the next one
starts). -/
theorem c8_scan_block_invariants (s : List Nat) :
    (∀ p ∈ find_pumls s, p.start < p.stop ∧ BlockOk s p) ∧
    (find_pumls s).Pairwise (fun a b => a.stop ≤ b.start) :=
  ⟨find_pumls_ok s, find_pumls_pairwise s⟩

/-- Witness for C8 at a concrete buffer and block. -/
theorem c8_scan_block_invariants_witness :
    (⟨2, 19, bytes "X\n", false⟩ : Puml).start < (⟨2, 19, bytes "X\n", false⟩ : Puml).stop ∧
      BlockOk (bytes "ab```plantuml\nX\n```") ⟨2, 19, bytes "X\n", false⟩ :=
  (c8_scan_block_invariants (bytes "ab```plantuml\nX\n```")).1
    ⟨2, 19, bytes "X\n", false⟩ (by decide)

/-- Claim C1 (counterexample): a suppressed block is NOT reproduced
byte-for-byte.  For the input consisting of one ignore-qualified block,
the rewriter's output differs from the input: `Puml::render` rebuilds the
block as a plain `plantuml` fence, dropping the `,ignore` qualifier (the
repository's own `replace` test records the same behaviour). -/
theorem c1_suppressed_not_verbatim_counterexample :
    (replace_all (fun _ q => Puml.render q true 0)
        (bytes "```plantuml,ignore\nX\n```")).output ≠
      bytes "```plantuml,ignore\nX\n```" := by
  decide

/-- Claim C1 (amended): for every suppressed block the rewriter replaces the
block's original markup (from `start` to `stop`) with the normalized fence
`"```plantuml\n" ++ contents ++ "```"`: the contents are preserved
byte-for-byte, but the opening fence loses its `ignore` qualifier and the
closing token is normalized to a bare fence. -/
theorem c1_suppressed_block_normalized (s : List Nat) (ok : Bool) (d : Nat)
    (bs1 bs2 : List Puml) (p : Puml)
    (hsplit : find_pumls s = bs1 ++ p :: bs2) (hig : p.ignore = true) :
    (replace_all (fun _ q => Puml.render q ok d) s).output =
      (goP (fun _ q => Puml.render q ok d) s bs1 0 0).1 ++
      seg s (goP (fun _ q => Puml.render q ok d) s bs1 0 0).2.2 p.start ++
      (bytes "```plantuml\n" ++ p.contents ++ bytes "```") ++
      (replaceAllGo (fun _ q => Puml.render q ok d) s bs2 (bs1.length + 1) p.stop).output := by
  have hr : (fun _ q => Puml.render q ok d) bs1.length p =
      Except.ok (bytes "```plantuml\n" ++ p.contents ++ bytes "```") := by
    simp [Puml.render, hig]
  unfold replace_all
  rw [hsplit, replaceAllGo_eq_goP, goP_append]
  simp only [Nat.zero_add]
  rw [goP_cons_ok _ _ bs2 _ hr, replaceAllGo_eq_goP]
  dsimp only
  simp [List.append_assoc]

/-- Witness for the amended C1 at a concrete one-block buffer. -/
theorem c1_suppressed_block_normalized_witness :
    (replace_all (fun _ q => Puml.render q true 3)
        (bytes "A```plantuml,ignore\nY\n```B")).output =
      (goP (fun _ q => Puml.render q true 3) (bytes "A```plantuml,ignore\nY\n```B") [] 0 0).1 ++
      seg (bytes "A```plantuml,ignore\nY\n```B")
        (goP (fun _ q => Puml.render q true 3) (bytes "A```plantuml,ignore\nY\n```B") [] 0 0).2.2
        (⟨1, 25, bytes "Y\n", true⟩ : Puml).start ++
      (bytes "```plantuml\n" ++ (⟨1, 25, bytes "Y\n", true⟩ : Puml).contents ++ bytes "```") ++
      (replaceAllGo (fun _ q => Puml.render q true 3) (bytes "A```plantuml,ignore\nY\n```B")
          [] (List.length ([] : List Puml) + 1) (⟨1, 25, bytes "Y\n", true⟩ : Puml).stop).output :=
  c1_suppressed_block_normalized _ true 3 [] [] _ (by decide) (by decide)

/-- Claim C2 (counterexample): the scanner does not recognize the directive
form.  Scanning a buffer that contains exactly one
`\x7b\x7b#plantuml <path>\x7d\x7d` directive yields no occurrence at all —
the directive regex exists only as a comment in the source and the
Aho-Corasick patterns are the three fence literals. -/
theorem c2_directive_not_scanned_counterexample :
    find_pumls (bytes "\x7b\x7b#plantuml assets/a.puml\x7d\x7d") = [] := by
  decide

/-- Claim C2 (amended): the scanner recognizes only the inline fenced block
surface: every occurrence it produces opens with a plantuml fence literal
(the ignore-qualified one exactly when the block is suppressed), never
with a brace directive. -/
theorem c2_scanner_recognizes_fences_only (s : List Nat) :
    ∀ p ∈ find_pumls s,
      (if p.ignore then pat2 else pat0).isPrefixOf (s.drop p.start) = true := by
  intro p hp
  obtain ⟨_, c, _, hop, _⟩ := find_pumls_ok s p hp
  exact hop

/-- Witness for the amended C2 at a concrete fenced buffer. -/
theorem c2_scanner_recognizes_fences_only_witness :
    (if (⟨0, 17, bytes "X\n", false⟩ : Puml).ignore then pat2 else pat0).isPrefixOf
        ((bytes "```plantuml\nX\n```").drop (⟨0, 17, bytes "X\n", false⟩ : Puml).start) = true :=
  c2_scanner_recognizes_fences_only (bytes "```plantuml\nX\n```")
    ⟨0, 17, bytes "X\n", false⟩ (by decide)

/-- Claim C3: a failing render never aborts the rewrite: the pass continues
with the remaining blocks (first conjunct: the output ends with the
rewrite of the remaining block list, resumed at the failed block's
`start`), the failing block's original markup including its delimiters
appears verbatim in the output (second conjunct), and the failure is
reported on the log channel together with the failing block's contents
and the error value, whose cause chain the source prints (third
conjunct). -/
theorem c3_render_failure_isolated {ε : Type} (r : Nat → Puml → Except ε (List Nat))
    (s : List Nat) (bs1 bs2 : List Puml) (p : Puml) (e : ε)
    (hsplit : find_pumls s = bs1 ++ p :: bs2)
    (herr : r bs1.length p = Except.error e) :
    (∃ pre, (replace_all r s).output =
        pre ++ (replaceAllGo r s bs2 (bs1.length + 1) p.start).output) ∧
    (∃ pre post, (replace_all r s).output = pre ++ seg s p.start p.stop ++ post) ∧
    (p.contents, e) ∈ (replace_all r s).logs := by
  have hmem : p ∈ find_pumls s := by rw [hsplit]; simp
  obtain ⟨hlt, cP, hc3, hop, hcl, hcont2, hslen, hcont⟩ := find_pumls_ok s p hmem
  have hout : (replace_all r s).output =
      (goP r s bs1 0 0).1 ++ (seg s (goP r s bs1 0 0).2.2 p.start ++
        (replaceAllGo r s bs2 (bs1.length + 1) p.start).output) ∧
      (replace_all r s).logs = (goP r s bs1 0 0).2.1 ++
        (p.contents, e) :: (replaceAllGo r s bs2 (bs1.length + 1) p.start).logs := by
    unfold replace_all
    rw [hsplit, replaceAllGo_eq_goP, goP_append]
    simp only [Nat.zero_add]
    rw [goP_cons_error _ _ bs2 _ herr, replaceAllGo_eq_goP]
    dsimp only
    constructor
    · simp [List.append_assoc]
    · simp
  refine ⟨⟨(goP r s bs1 0 0).1 ++ seg s (goP r s bs1 0 0).2.2 p.start, by
    rw [hout.1]; simp [List.append_assoc]⟩, ?_, ?_⟩
  · cases bs2 with
    | nil =>
      refine ⟨(goP r s bs1 0 0).1 ++ seg s (goP r s bs1 0 0).2.2 p.start,
        seg s p.stop s.length, ?_⟩
      have hrest : (replaceAllGo r s [] (bs1.length + 1) p.start).output =
          seg s p.start s.length := by
        simp [replaceAllGo]
      rw [hout.1, hrest, seg_append s p.start p.stop s.length (by omega) hslen (le_refl _)]
      simp [List.append_assoc]
    | cons q bs2' =>
      have hq : q ∈ find_pumls s := by rw [hsplit]; simp
      obtain ⟨hqlt, cQ, _, _, _, _, hqsl, _⟩ := find_pumls_ok s q hq
      have hpq : p.stop ≤ q.start := by
        have hpair := find_pumls_pairwise s
        rw [hsplit] at hpair
        have h2 := (List.pairwise_append.mp hpair).2.1
        exact (List.pairwise_cons.mp h2).1 q (by simp)
      obtain ⟨T, hT⟩ := replaceAllGo_cons_output r s q bs2' (bs1.length + 1) p.start
      refine ⟨(goP r s bs1 0 0).1 ++ seg s (goP r s bs1 0 0).2.2 p.start,
        seg s p.stop q.start ++ T, ?_⟩
      rw [hout.1, hT, seg_append s p.start p.stop q.start (by omega) hpq (by omega)]
      simp [List.append_assoc]
  · rw [hout.2]
    simp

/-- Witness for C3 at a concrete one-block buffer whose render fails. -/
theorem c3_render_failure_isolated_witness :
    (∃ pre, (replace_all (fun _ _ => (Except.error 7 : Except Nat (List Nat)))
        (bytes "Q```plantuml\nZ\n```W")).output =
        pre ++ (replaceAllGo (fun _ _ => (Except.error 7 : Except Nat (List Nat)))
          (bytes "Q```plantuml\nZ\n```W") [] (List.length ([] : List Puml) + 1)
          (⟨1, 18, bytes "Z\n", false⟩ : Puml).start).output) ∧
    (∃ pre post, (replace_all (fun _ _ => (Except.error 7 : Except Nat (List Nat)))
        (bytes "Q```plantuml\nZ\n```W")).output =
        pre ++ seg (bytes "Q```plantuml\nZ\n```W") (⟨1, 18, bytes "Z\n", false⟩ : Puml).start
          (⟨1, 18, bytes "Z\n", false⟩ : Puml).stop ++ post) ∧
    ((⟨1, 18, bytes "Z\n", false⟩ : Puml).contents, 7) ∈
      (replace_all (fun _ _ => (Except.error 7 : Except Nat (List Nat)))
        (bytes "Q```plantuml\nZ\n```W")).logs :=
  c3_render_failure_isolated _ _ [] [] _ 7 (by decide) rfl

/-- Claim C5: the existence check is the entire cache.  If the artifact named
by the identity already exists, `compile` returns success immediately with
zero renderer invocations and an unchanged directory (third conjunct);
after any successful `compile`, a second `compile` of the same target is a
pure cache hit with zero invocations (first conjunct), so the two calls
together invoke the external renderer at most once (second conjunct). -/
theorem c5_compile_cached_at_most_once (fs : List (List Nat)) (t : Target)
    (p1 r1 p2 r2 : Bool) (h : (Compiler.compile p1 r1 fs t).ok = true) :
    Compiler.compile p2 r2 (Compiler.compile p1 r1 fs t).fs t =
      ⟨true, (Compiler.compile p1 r1 fs t).fs, 0⟩ ∧
    (Compiler.compile p1 r1 fs t).invocations +
      (Compiler.compile p2 r2 (Compiler.compile p1 r1 fs t).fs t).invocations ≤ 1 ∧
    (outfileName t ∈ fs → Compiler.compile p1 r1 fs t = ⟨true, fs, 0⟩) := by
  unfold Compiler.compile at *
  by_cases hm : outfileName t ∈ fs
  · simp only [if_pos hm] at h ⊢
    simp [hm]
  · simp only [if_neg hm] at h ⊢
    cases p1 with
    | false => simp at h
    | true =>
      cases r1 with
      | false => simp at h
      | true =>
        simp only [if_pos rfl, if_true]
        have hmem : outfileName t ∈ outfileName t :: fs := by simp
        simp [hmem, hm]

/-- Witness for C5: a fresh directory, a successful first render, then a
cache hit. -/
theorem c5_compile_cached_at_most_once_witness :
    Compiler.compile false false
        (Compiler.compile true true [] ⟨0, [], none, "svg"⟩).fs ⟨0, [], none, "svg"⟩ =
      ⟨true, (Compiler.compile true true [] ⟨0, [], none, "svg"⟩).fs, 0⟩ ∧
    (Compiler.compile true true [] ⟨0, [], none, "svg"⟩).invocations +
      (Compiler.compile false false
        (Compiler.compile true true [] ⟨0, [], none, "svg"⟩).fs ⟨0, [], none, "svg"⟩).invocations
      ≤ 1 ∧
    (outfileName ⟨0, [], none, "svg"⟩ ∈ ([] : List (List Nat)) →
      Compiler.compile true true [] ⟨0, [], none, "svg"⟩ = ⟨true, [], 0⟩) :=
  c5_compile_cached_at_most_once [] ⟨0, [], none, "svg"⟩ true true false false (by decide)

/-- Claim C9: on valid UTF-8 input, for any pattern of blocks and any render
outcomes, every text range the rewrite pass slices — the verbatim copy
before each block, the final tail copy, and each block's delimiters and
interior — is in bounds and starts and ends on UTF-8 character
boundaries; the modelled pass is a total function by construction. -/
theorem c9_rewrite_pass_safe {ε : Type} (r : Nat → Puml → Except ε (List Nat))
    (s : List Nat) (hu : Utf8 s) :
    (∀ q ∈ sliceList r s (find_pumls s) 0 0,
       q.1 ≤ q.2 ∧ q.2 ≤ s.length ∧ Boundary s q.1 ∧ Boundary s q.2) ∧
    (∀ p ∈ find_pumls s, p.start < p.stop ∧ p.stop ≤ s.length ∧
       Boundary s p.start ∧ Boundary s p.stop ∧
       ∃ a b, a ≤ b ∧ b ≤ s.length ∧ p.contents = seg s a b ∧
         Boundary s a ∧ Boundary s b) := by
  have hcond : ∀ p ∈ find_pumls s, 0 ≤ p.start ∧ p.start < p.stop ∧ p.stop ≤ s.length ∧
      Boundary s p.start ∧ Boundary s p.stop := by
    intro p hp
    obtain ⟨hlt, hbOk⟩ := find_pumls_ok s p hp
    obtain ⟨c, _, _, _, _, hsl, _⟩ := hbOk
    obtain ⟨b1, b2, _⟩ := block_boundaries hu hp
    exact ⟨Nat.zero_le _, hlt, hsl, b1, b2⟩
  constructor
  · exact sliceList_ok r s hu (find_pumls s) 0 0 (Nat.zero_le _) (boundary_zero hu)
      hcond (find_pumls_pairwise s)
  · intro p hp
    obtain ⟨_, hlt, hsl, b1, b2⟩ := hcond p hp
    obtain ⟨_, _, b3⟩ := block_boundaries hu hp
    exact ⟨hlt, hsl, b1, b2, b3⟩

/-- Witness for C9: a buffer starting with a two-byte character followed by a
block; the slice before the block is in bounds and boundary-aligned. -/
theorem c9_rewrite_pass_safe_witness :
    (0, 3) ∈ sliceList (fun _ _ => (Except.error () : Except Unit (List Nat)))
        (bytes "é\n```plantuml\nX\n```") (find_pumls (bytes "é\n```plantuml\nX\n```")) 0 0 ∧
      (0 ≤ 3 ∧ 3 ≤ (bytes "é\n```plantuml\nX\n```").length ∧
        Boundary (bytes "é\n```plantuml\nX\n```") 0 ∧
        Boundary (bytes "é\n```plantuml\nX\n```") 3) :=
  ⟨by decide,
    by
      have h := (c9_rewrite_pass_safe (fun _ _ => (Except.error () : Except Unit (List Nat)))
        (bytes "é\n```plantuml\nX\n```") ⟨("é\n```plantuml\nX\n```").data, rfl⟩).1
        (0, 3) (by decide)
      exact ⟨Nat.zero_le _, h.2.1, h.2.2.1, h.2.2.2⟩⟩

/-- Claim C10: `find_name` yields a name exactly when the contents begin with
the literal `"@startuml "` (trailing space included); the name is the
newline-free remainder of the first line (the whole remainder when no
newline follows); contents starting `"@startuml\n"` — no trailing space —
yield no name, and the rendered image reference then has empty alt text
and uses the uuid as the artifact filename stem. -/
theorem c10_find_name_characterization (c : List Nat) :
    ((find_name c).isSome = true ↔ (bytes "@startuml ").isPrefixOf c = true) ∧
    (∀ n, find_name c = some n → 10 ∉ n ∧
      (c.drop 10 = n ∨ ∃ t, c.drop 10 = n ++ 10 :: t)) ∧
    find_name (bytes "@startuml\n" ++ c) = none ∧
    (∀ (d st en : Nat),
      Puml.render ⟨st, en, bytes "@startuml\n" ++ c, false⟩ true d =
        Except.ok (bytes "![](" ++ dotsPath d ++ bytes "plantuml_images/" ++
          uuidBytes (uuidOf (bytes "@startuml\n" ++ c)) ++ bytes ".svg)")) := by
  have hnone : find_name (bytes "@startuml\n" ++ c) = none := by
    unfold find_name
    rw [if_neg]
    intro hpre
    obtain ⟨rest, hrest⟩ := (isPrefixOf_eq _ _).mp hpre
    have h10 : (bytes "@startuml " ++ rest).take 10 = bytes "@startuml " :=
      List.take_left' (by decide)
    have h10b : (bytes "@startuml\n" ++ c).take 10 = bytes "@startuml\n" :=
      List.take_left' (by decide)
    rw [hrest, h10b] at h10
    exact absurd h10 (by decide)
  refine ⟨?_, ?_, hnone, ?_⟩
  · unfold find_name
    by_cases hpre : (bytes "@startuml ").isPrefixOf c = true
    · simp [hpre]
    · simp only [Bool.not_eq_true] at hpre
      simp [hpre]
  · intro n hn
    unfold find_name at hn
    split_ifs at hn with hpre
    · injection hn with hn2
      obtain ⟨h1, h2⟩ := takeWhile_newline_split (c.drop 10)
      rw [hn2] at h1 h2
      exact ⟨h1, by tauto⟩
  · intro d st en
    unfold Puml.render
    simp only [Bool.false_eq_true, if_false, if_true, imageRef]
    rw [hnone]
    simp only [Option.getD_none]
    rw [List.append_nil]
    rw [show (bytes "![" : List Nat) ++ bytes "](" = bytes "![](" from by decide]
    simp [Puml.uuid]

/-- Witness for C10: a contents with the marker prefix and a newline yields
the first-line remainder as the name. -/
theorem c10_find_name_characterization_witness :
    10 ∉ bytes "Doc" ∧
      ((bytes "@startuml Doc\nrest").drop 10 = bytes "Doc" ∨
        ∃ t, (bytes "@startuml Doc\nrest").drop 10 = bytes "Doc" ++ 10 :: t) :=
  (c10_find_name_characterization (bytes "@startuml Doc\nrest")).2.1
    (bytes "Doc") (by decide)
